import Mathlib

/-!
# A verification development for the spk/spfs core

This file gives a shallow embedding, in Lean 4, of the parts of the
spk package solver and the spfs content-addressed store that the
accompanying specification describes, together with theorems settling
the specification's claims against the code.

Conventions used throughout:

* Rust strings are modelled as Lean `String` where only equality and
  ordering matter, and as `List Nat` (their UTF-8 bytes) where the
  binary codec is concerned.
* Machine integers are modelled as `Nat` with explicit bounds where
  overflow could matter.
* Fallible operations return `Option` or `Except`.
* Byte streams are `List Nat`.
-/

namespace Spk

/-! ## The build and identifier model

Translated from
`crates/spk-schema/crates/foundation/src/ident_build/build.rs` and
`crates/spk-schema/crates/ident/src/ident.rs`.  A `Version` is kept
abstract as a natural number: the claims below depend only on versions
being an ordered type with decidable equality. -/

/-- An embedded package's origin (if known), from `EmbeddedSource` in
`build.rs`. -/
inductive EmbeddedSource where
  | ident (s : String)
  | unknown
deriving DecidableEq, Repr

/-- A package build identifier, from `Build` in `build.rs`: a source
build, an embedded build, or an option-map digest of 8 characters. -/
inductive Build where
  | source
  | embedded (src : EmbeddedSource)
  | digest (chars : List Char)
deriving DecidableEq, Repr

/-- `Build::is_source` from `build.rs`. -/
def Build.is_source : Build → Bool
  | .source => true
  | _ => false

/-- Versions are modelled abstractly by naturals (ordered, decidable
equality); none of the claims depends on version internals. -/
abbrev Version := Nat

/-- A package identifier, from `Ident` in `ident.rs`: a name, a
version, and an optional build. -/
structure Ident where
  name : String
  version : Version
  build : Option Build
deriving DecidableEq, Repr

/-- `Ident::is_source` from `ident.rs`: true when the build component
is present and is a source build. -/
def Ident.is_source (i : Ident) : Bool :=
  match i.build with
  | some b => b.is_source
  | none => false

/-- `Ident::with_build` from `ident.rs`: a copy of the identifier with
the build replaced. -/
def Ident.with_build (i : Ident) (b : Option Build) : Ident :=
  { i with build := b }

/-! ## C1: the pre-sort in `RepositoryBuildIterator::new`

`src/solve/package_iterator.rs` line 332 sorts the builds listed by
the repository with `builds.sort_by_key(|pkg| !pkg.is_source())`.
Rust's `sort_by_key` is a stable ascending sort, and `false < true`,
so this key places builds for which `!is_source()` is `false` — that
is, the source builds — at the *front*.  We model the stable sort with
`List.insertionSort`, which is likewise stable. -/

/-- The sort key used at `package_iterator.rs:332`: `!pkg.is_source()`. -/
def buildIterSortKey (pkg : Ident) : Bool :=
  !pkg.is_source

/-- The stable ascending sort by `buildIterSortKey` performed by
`RepositoryBuildIterator::new` on the list of builds returned by
`list_package_builds`. -/
def sortBuildsForIter (builds : List Ident) : List Ident :=
  builds.insertionSort (fun a b => buildIterSortKey a ≤ buildIterSortKey b)

/-- A concrete non-source (digest) build identifier. -/
def identDigest0 : Ident :=
  { name := "pkg", version := 1, build := some (.digest ['a', 'b', 'c', 'd', 'e', 'f', 'g', 'h']) }

/-- A concrete source build identifier of the same package version. -/
def identSource0 : Ident :=
  { name := "pkg", version := 1, build := some .source }

/-- C1: the build list prepared by `RepositoryBuildIterator::new`,
evaluated at the failing input `[digest-build, source-build]`.  The
claim (and the code's own comment, "source packages must come last")
says the source build must come *after* the non-source build, but the
sort key `!pkg.is_source()` sends source builds to the front: the
sorted sequence starts with the source build. -/
theorem c1_sort_puts_source_first :
    sortBuildsForIter [identDigest0, identSource0] = [identSource0, identDigest0] ∧
      sortBuildsForIter [identDigest0, identSource0] ≠ [identDigest0, identSource0] := by
  constructor
  · rfl
  · decide

/-! ## C10: `FSRepository::ls_tags`

Translated from `crates/spfs/src/storage/fs/tag.rs` lines 69-115.  The
directory listing is modelled as `Option (List String)` of entry file
names, `none` standing for a `NotFound` error from `read_dir`.  The
per-entry I/O error items that the Rust stream can also yield are
external failures and are not modelled; the claims concern the
successfully yielded names. -/

/-- Rust `Path::file_stem` / `Path::extension` semantics for a plain
file name: split at the final dot, except that a name with no dot, or
a name whose only dot is leading, has no extension. -/
def fileStemAndExt (name : String) : String × Option String :=
  match name.splitOn "." with
  | [] => (name, none)
  | [_] => (name, none)
  | ["", _] => (name, none)
  | p :: ps =>
    (String.intercalate "." ((p :: ps).dropLast),
      some ((p :: ps).getLast (by simp)))

/-- The name yielded by `ls_tags` for one directory entry: the stem
for a `.tag` file, otherwise the entry name with a trailing slash. -/
def lsTagsEntry (name : String) : String :=
  let (stem, ext) := fileStemAndExt name
  if ext = some "tag" then stem else name ++ "/"

/-- The dedup loop of `ls_tags`: each candidate name is yielded only
if it was not already in the `entries` hash set. -/
def lsTagsLoop (seen : List String) : List String → List String
  | [] => []
  | name :: rest =>
    let e := lsTagsEntry name
    if e ∈ seen then lsTagsLoop seen rest
    else e :: lsTagsLoop (e :: seen) rest

/-- `FSRepository::ls_tags`: empty for a missing directory, otherwise
the deduplicated entry names. -/
def ls_tags : Option (List String) → List String
  | none => []
  | some entries => lsTagsLoop [] entries

theorem lsTagsLoop_nodup (names : List String) : ∀ seen : List String,
    (lsTagsLoop seen names).Nodup ∧ ∀ x ∈ lsTagsLoop seen names, x ∉ seen := by
  induction names with
  | nil => intro seen; simp [lsTagsLoop]
  | cons name rest ih =>
    intro seen
    simp only [lsTagsLoop]
    by_cases h : lsTagsEntry name ∈ seen
    · simpa only [if_pos h] using ih seen
    · simp only [if_neg h]
      refine ⟨List.nodup_cons.mpr ⟨fun hmem => ?_, (ih _).1⟩, ?_⟩
      · exact ((ih (lsTagsEntry name :: seen)).2 _ hmem) (List.mem_cons_self _ _)
      · intro x hx
        rcases List.mem_cons.mp hx with rfl | hx'
        · exact h
        · intro hxseen
          exact ((ih _).2 _ hx') (List.mem_cons_of_mem _ hxseen)

/-- C10: for a path that does not exist under the tag root, `ls_tags`
yields the empty sequence rather than an error, and for any directory
listing it never yields the same entry name twice. -/
theorem c10_ls_tags_missing_empty_and_nodup :
    ls_tags none = [] ∧ ∀ entries : List String, (ls_tags (some entries)).Nodup := by
  refine ⟨rfl, fun entries => ?_⟩
  exact (lsTagsLoop_nodup entries []).1

/-! ## C7: `CmdCheck::run`

Translated from `crates/spfs-cli/main/src/cmd_check.rs` lines 26-114.
Repository opening and reference resolution are external I/O and are
elided; the integrity walk's result is passed in as the list of
reported errors, and the success of each attempted `sync_digest`
repair is an oracle on the digest. -/

/-- The errors reported by the integrity walk that `CmdCheck::run`
inspects: the two repairable kinds carry digests, everything else is
unrepairable. -/
inductive CheckError where
  | unknownObject (digest : Nat)
  | objectMissingPayload (owner digest : Nat)
  | other
deriving DecidableEq, Repr

/-- The `--remote` and `--pull` arguments of the check command
(`pull = some none` means `--pull` given without a value). -/
structure CmdCheck where
  remote : Option String
  pull : Option (Option String)
deriving DecidableEq, Repr

/-- The `match self.pull.take()` at the top of `CmdCheck::run`:
either rejects the combination of `--pull` and `--remote`, or yields
the name of the repository to pull from (if any). -/
def pullFromResult (cmd : CmdCheck) : Except String (Option String) :=
  match cmd.pull with
  | some (some r) =>
    if some r = cmd.remote then .error "Cannot --pull from same repo as --remote"
    else .ok (some r)
  | some none =>
    if cmd.remote = some "origin" then .error "Cannot --pull from same repo as --remote"
    else .ok (some "origin")
  | none => .ok none

/-- Whether one reported error gets repaired in the loop of
`CmdCheck::run`: a pull source must be configured, the error must be
`UnknownObject` or `ObjectMissingPayload`, and the sync of its digest
must succeed. -/
def errorRepaired (pullPresent : Bool) (syncOk : Nat → Bool) : CheckError → Bool
  | .unknownObject d => pullPresent && syncOk d
  | .objectMissingPayload _ d => pullPresent && syncOk d
  | .other => false

/-- `CmdCheck::run`: reject bad `--pull`/`--remote` combinations, then
count repairs and return exit code 1 exactly when errors were reported
and not all were repaired. -/
def cmdCheckRun (cmd : CmdCheck) (errors : List CheckError) (syncOk : Nat → Bool) :
    Except String Int :=
  match pullFromResult cmd with
  | .error e => .error e
  | .ok pullFrom =>
    let repairCount := errors.countP (errorRepaired pullFrom.isSome syncOk)
    if errors ≠ [] ∧ repairCount < errors.length then .ok 1 else .ok 0

/-- The combinations of `--pull` and `--remote` that name the same
repository: an explicit matching name, or `--pull` defaulting to
`origin` while `--remote` is `origin`. -/
def pullSameAsRemote (cmd : CmdCheck) : Prop :=
  (∃ r, cmd.pull = some (some r) ∧ cmd.remote = some r) ∨
    (cmd.pull = some none ∧ cmd.remote = some "origin")

theorem pullFromResult_of_not_same (cmd : CmdCheck) (h : ¬pullSameAsRemote cmd) :
    ∃ pullFrom, pullFromResult cmd = .ok pullFrom ∧ pullFrom.isSome = cmd.pull.isSome := by
  obtain ⟨remote, pull⟩ := cmd
  unfold pullSameAsRemote at h
  rcases pull with _ | (_ | r)
  · exact ⟨none, rfl, rfl⟩
  · refine ⟨some "origin", ?_, rfl⟩
    unfold pullFromResult
    exact if_neg fun hr => h (Or.inr ⟨rfl, hr⟩)
  · refine ⟨some r, ?_, rfl⟩
    unfold pullFromResult
    exact if_neg fun hr => h (Or.inl ⟨r, rfl, hr.symm⟩)

/-- C7: `CmdCheck::run` errors out (before consulting any check
result) whenever `--pull` names the same repository as `--remote`,
including the defaulted-`origin` case; otherwise it exits 0 when no
errors were reported or every reported error was repaired, and exits
1 when any reported error remains unrepaired. -/
theorem c7_cmd_check_run (cmd : CmdCheck) (errors : List CheckError) (syncOk : Nat → Bool) :
    (pullSameAsRemote cmd →
      cmdCheckRun cmd errors syncOk = .error "Cannot --pull from same repo as --remote") ∧
    (¬pullSameAsRemote cmd →
      cmdCheckRun cmd errors syncOk =
        .ok (if ∀ e ∈ errors, errorRepaired cmd.pull.isSome syncOk e then 0 else 1)) := by
  constructor
  · intro h
    rcases h with ⟨r, hp, hr⟩ | ⟨hp, hr⟩ <;>
      simp [cmdCheckRun, pullFromResult, hp, hr]
  · intro h
    obtain ⟨pullFrom, hok, hsome⟩ := pullFromResult_of_not_same cmd h
    unfold cmdCheckRun
    rw [hok]
    simp only [hsome]
    by_cases hall : ∀ e ∈ errors, errorRepaired cmd.pull.isSome syncOk e
    · rw [if_pos hall, if_neg]
      rintro ⟨-, hlt⟩
      exact absurd (List.countP_eq_length.mpr fun a ha => hall a ha) (Nat.ne_of_lt hlt)
    · rw [if_neg hall, if_pos]
      push_neg at hall
      obtain ⟨e, he, hne⟩ := hall
      refine ⟨List.ne_nil_of_mem he, lt_of_le_of_ne (List.countP_le_length _) fun hc => ?_⟩
      exact hne (List.countP_eq_length.mp hc e he)

/-- Closed instances of `c7_cmd_check_run` at concrete inputs, one per
hypothesis side. -/
theorem c7_cmd_check_run_witness :
    cmdCheckRun ⟨some "origin", some none⟩ [.other] (fun _ => false) =
        .error "Cannot --pull from same repo as --remote" ∧
      cmdCheckRun ⟨none, some none⟩ [.unknownObject 7] (fun _ => true) = .ok 0 ∧
      cmdCheckRun ⟨none, none⟩ [.unknownObject 7] (fun _ => true) = .ok 1 := by
  refine ⟨(c7_cmd_check_run ⟨some "origin", some none⟩ [.other] (fun _ => false)).1
      (Or.inr ⟨rfl, rfl⟩), ?_, ?_⟩
  · rw [(c7_cmd_check_run ⟨none, some none⟩ [.unknownObject 7] (fun _ => true)).2
      (by rintro (⟨r, hp, hr⟩ | ⟨hp, hr⟩) <;> simp_all)]
    rw [if_pos (by decide)]
  · rw [(c7_cmd_check_run ⟨none, none⟩ [.unknownObject 7] (fun _ => true)).2
      (by rintro (⟨r, hp, hr⟩ | ⟨hp, hr⟩) <;> simp_all)]
    rw [if_neg (by decide)]

/-! ## The binary codec

Translated from `crates/spfs/src/encoding/binary.rs`.  Rust strings
are modelled by their UTF-8 bytes (`List Nat`), under which the
`str::from_utf8` validations are the identity and the character NUL
corresponds exactly to the byte 0.  A writer is modelled by the bytes
already written; a fallible write returns its result together with the
stream after the call. -/

/-- Codec-level errors. -/
inductive CodecErr where
  | invalidString
  | unexpectedEof
deriving DecidableEq, Repr

/-- `write_string` from `binary.rs`: refuse strings containing NUL
without writing, otherwise append the bytes and a single NUL
terminator. -/
def write_string (out s : List Nat) : Except CodecErr Unit × List Nat :=
  if 0 ∈ s then (.error .invalidString, out) else (.ok (), out ++ s ++ [0])

/-- `read_string` from `binary.rs`: consume bytes up to and including
the first NUL and return the bytes before it; reaching the end of the
stream without a NUL is an `UnexpectedEof` error.  Returns the string
bytes together with the unconsumed remainder of the stream. -/
def read_string (input : List Nat) : Except CodecErr (List Nat × List Nat) :=
  if 0 ∈ input then
    .ok (input.takeWhile (fun b => b != 0), (input.dropWhile (fun b => b != 0)).drop 1)
  else .error .unexpectedEof

/-- Big-endian bytes of `n`, `w` bytes wide, as written by
`write_uint` / `write_int` (`w = 8`). -/
def toBytesBE (w n : Nat) : List Nat :=
  match w with
  | 0 => []
  | w + 1 => toBytesBE w (n / 256) ++ [n % 256]

/-- The value of a big-endian byte sequence, as read by `read_uint`. -/
def fromBytesBE (bs : List Nat) : Nat :=
  bs.foldl (fun acc b => acc * 256 + b) 0

theorem fromBytesBE_append_one (xs : List Nat) (b : Nat) :
    fromBytesBE (xs ++ [b]) = fromBytesBE xs * 256 + b := by
  unfold fromBytesBE
  rw [List.foldl_append]
  rfl

theorem length_toBytesBE (w n : Nat) : (toBytesBE w n).length = w := by
  induction w generalizing n with
  | zero => rfl
  | succ w ih => simp [toBytesBE, ih]

theorem mod_pow_succ_low (n w : Nat) :
    n / 256 % 256 ^ w * 256 + n % 256 = n % 256 ^ (w + 1) := by
  rw [pow_succ, Nat.mul_comm (256 ^ w) 256,
    ← Nat.mod_mul_right_div_self n 256 (256 ^ w),
    show n % 256 = n % (256 * 256 ^ w) % 256 from
      (Nat.mod_mod_of_dvd n ⟨256 ^ w, rfl⟩).symm]
  omega

theorem fromBytesBE_toBytesBE (w n : Nat) : fromBytesBE (toBytesBE w n) = n % 256 ^ w := by
  induction w generalizing n with
  | zero => simp [toBytesBE, fromBytesBE, Nat.mod_one]
  | succ w ih =>
    rw [toBytesBE, fromBytesBE_append_one, ih]
    exact mod_pow_succ_low n w

theorem takeWhile_append_zero (s rest : List Nat) (h : 0 ∉ s) :
    (s ++ 0 :: rest).takeWhile (fun b => b != 0) = s := by
  induction s with
  | nil => simp [List.takeWhile]
  | cons a s' ih =>
    have ha : a ≠ 0 := fun hz => h (hz ▸ List.mem_cons_self a s')
    have hs : (0 : Nat) ∉ s' := fun hz => h (List.mem_cons_of_mem _ hz)
    simp only [List.cons_append, List.takeWhile]
    rw [show (a != 0) = true by simpa using ha]
    simp [ih hs]

theorem dropWhile_append_zero (s rest : List Nat) (h : 0 ∉ s) :
    (s ++ 0 :: rest).dropWhile (fun b => b != 0) = 0 :: rest := by
  induction s with
  | nil => simp [List.dropWhile]
  | cons a s' ih =>
    have ha : a ≠ 0 := fun hz => h (hz ▸ List.mem_cons_self a s')
    have hs : (0 : Nat) ∉ s' := fun hz => h (List.mem_cons_of_mem _ hz)
    simp only [List.cons_append, List.dropWhile]
    rw [show (a != 0) = true by simpa using ha]
    simp [ih hs]

theorem read_string_append (s rest : List Nat) (h : 0 ∉ s) :
    read_string (s ++ 0 :: rest) = .ok (s, rest) := by
  unfold read_string
  rw [if_pos (by simp), takeWhile_append_zero s rest h, dropWhile_append_zero s rest h]
  rfl

/-- C5: `write_string` on a NUL-free string deterministically appends
the string's UTF-8 bytes plus one NUL terminator, and `read_string`
on that output (followed by any further stream content) returns
exactly the original string; `write_string` on a string containing
NUL fails with the invalid-string error and leaves the stream
untouched. -/
theorem c5_write_read_string (s out rest : List Nat) :
    (0 ∉ s →
      write_string out s = (.ok (), out ++ s ++ [0]) ∧
        read_string (s ++ 0 :: rest) = .ok (s, rest)) ∧
      (0 ∈ s → write_string out s = (.error .invalidString, out)) := by
  refine ⟨fun h => ⟨?_, read_string_append s rest h⟩, fun h => ?_⟩
  · unfold write_string
    rw [if_neg h]
  · unfold write_string
    rw [if_pos h]

/-- Closed instances of `c5_write_read_string`: a round trip of the
bytes of "hi" and the rejection of a string holding a NUL byte. -/
theorem c5_write_read_string_witness :
    write_string [] [104, 105] = (.ok (), [104, 105, 0]) ∧
      read_string [104, 105, 0] = .ok ([104, 105], []) ∧
      write_string [7] [104, 0, 105] = (.error .invalidString, [7]) := by
  have h1 := (c5_write_read_string [104, 105] [] []).1 (by decide)
  have h2 := (c5_write_read_string [104, 0, 105] [7] []).2 (by decide)
  exact ⟨h1.1, h1.2, h2⟩

/-! ## Tags and the on-disk tag stream

From `crates/spfs/src/storage/fs/tag.rs`.  A tag stream file is a byte
sequence of records `[u64 size][size bytes: encoded Tag]`.  The
`tracking::Tag` codec itself is not part of the sources here, so it is
modelled from the spec. -/

/-- A tag record: named reference data.  String fields are UTF-8
byte lists, digests are byte lists (32 bytes when well-formed). -/
structure Tag where
  org : List Nat
  name : List Nat
  target : List Nat
  parent : List Nat
  user : List Nat
  time : Nat
deriving DecidableEq, Repr

/-- Well-formedness of a tag as produced by the Rust side: NUL-free
strings, 32-byte digests, and a 64-bit time. -/
def wfTag (t : Tag) : Prop :=
  0 ∉ t.org ∧ 0 ∉ t.name ∧ 0 ∉ t.user ∧
    t.target.length = 32 ∧ t.parent.length = 32 ∧ t.time < 256 ^ 8

instance (t : Tag) : Decidable (wfTag t) := by
  unfold wfTag
  infer_instance

/-- Modelled from the spec: the encoding of a `tracking::Tag`
(`tracking/tag.rs` is not among the sources), section 6: `org\0 name\0
target(32) parent(32) user\0 time_u64`, strings via `write_string`
and the time via big-endian `write_uint`. -/
def encodeTag (t : Tag) : List Nat :=
  t.org ++ 0 :: (t.name ++ 0 :: (t.target ++ t.parent ++ (t.user ++ 0 :: toBytesBE 8 t.time)))

/-- `read_string` as used inside decoding, with failure collapsed to
`none`. -/
def readStringOpt (input : List Nat) : Option (List Nat × List Nat) :=
  match read_string input with
  | .ok r => some r
  | .error _ => none

/-- `read_exact` of `n` bytes: the next `n` bytes plus the remainder,
or `none` on a short stream. -/
def readBytes (n : Nat) (input : List Nat) : Option (List Nat × List Nat) :=
  if n ≤ input.length then some (input.take n, input.drop n) else none

/-- Modelled from the spec: the decoder matching `encodeTag`, reading
`org\0 name\0 target(32) parent(32) user\0 time_u64` and failing on
any short read or missing terminator. -/
def decodeTag (input : List Nat) : Option (Tag × List Nat) :=
  match readStringOpt input with
  | none => none
  | some (org, r1) =>
    match readStringOpt r1 with
    | none => none
    | some (name, r2) =>
      match readBytes 32 r2 with
      | none => none
      | some (target, r3) =>
        match readBytes 32 r3 with
        | none => none
        | some (parent, r4) =>
          match readStringOpt r4 with
          | none => none
          | some (user, r5) =>
            match readBytes 8 r5 with
            | none => none
            | some (timeBytes, r6) =>
              some (⟨org, name, target, parent, user, fromBytesBE timeBytes⟩, r6)

theorem readStringOpt_eq (input : List Nat) :
    readStringOpt input =
      if 0 ∈ input then
        some (input.takeWhile (fun b => b != 0), (input.dropWhile (fun b => b != 0)).drop 1)
      else none := by
  by_cases hz : 0 ∈ input <;> simp [readStringOpt, read_string, hz]

theorem readStringOpt_append (s rest : List Nat) (h : 0 ∉ s) :
    readStringOpt (s ++ 0 :: rest) = some (s, rest) := by
  unfold readStringOpt
  rw [read_string_append s rest h]

theorem readBytes_exact (xs rest : List Nat) (n : Nat) (h : xs.length = n) :
    readBytes n (xs ++ rest) = some (xs, rest) := by
  unfold readBytes
  subst h
  rw [if_pos (by simp), List.take_left, List.drop_left]

theorem readStringOpt_length_le (input s rest : List Nat)
    (h : readStringOpt input = some (s, rest)) : rest.length ≤ input.length := by
  rw [readStringOpt_eq] at h
  split at h
  · cases h
    calc ((input.dropWhile (fun b => b != 0)).drop 1).length
        ≤ (input.dropWhile (fun b => b != 0)).length := by
          rw [List.length_drop]; omega
      _ ≤ input.length := (List.dropWhile_sublist _).length_le
  · cases h

theorem readBytes_length_le (n : Nat) (input bs rest : List Nat)
    (h : readBytes n input = some (bs, rest)) : rest.length ≤ input.length := by
  unfold readBytes at h
  split at h
  · cases h
    rw [List.length_drop]
    omega
  · cases h

theorem decodeTag_length_le (input : List Nat) (t : Tag) (rest : List Nat)
    (h : decodeTag input = some (t, rest)) : rest.length ≤ input.length := by
  unfold decodeTag at h
  split at h
  · cases h
  next org r1 h1 =>
    split at h
    · cases h
    next name r2 h2 =>
      split at h
      · cases h
      next target r3 h3 =>
        split at h
        · cases h
        next parent r4 h4 =>
          split at h
          · cases h
          next user r5 h5 =>
            split at h
            · cases h
            next timeBytes r6 h6 =>
              cases h
              calc rest.length ≤ r5.length := readBytes_length_le _ _ _ _ h6
                _ ≤ r4.length := readStringOpt_length_le _ _ _ h5
                _ ≤ r3.length := readBytes_length_le _ _ _ _ h4
                _ ≤ r2.length := readBytes_length_le _ _ _ _ h3
                _ ≤ r1.length := readStringOpt_length_le _ _ _ h2
                _ ≤ input.length := readStringOpt_length_le _ _ _ h1

theorem decodeTag_encodeTag (t : Tag) (rest : List Nat) (h : wfTag t) :
    decodeTag (encodeTag t ++ rest) = some (t, rest) := by
  obtain ⟨h1, h2, h3, h4, h5, h6⟩ := h
  unfold decodeTag encodeTag
  rw [show (t.org ++ 0 :: (t.name ++ 0 ::
        (t.target ++ t.parent ++ (t.user ++ 0 :: toBytesBE 8 t.time)))) ++ rest =
      t.org ++ 0 :: (t.name ++ 0 ::
        (t.target ++ (t.parent ++ (t.user ++ 0 :: (toBytesBE 8 t.time ++ rest))))) by
    simp [List.append_assoc]]
  simp only [readStringOpt_append, readBytes_exact, length_toBytesBE, h1, h2, h3, h4, h5,
    fromBytesBE_toBytesBE, Nat.mod_eq_of_lt, h6, not_false_eq_true]

/-! ### The tag stream file

`push_raw_tag_without_lock` (`tag.rs:37`) appends `[i64 size][encoded
tag]` to the stream file; tag encodings are tiny, so the `size as i64`
big-endian bytes coincide with the unsigned big-endian bytes.
`TagIter::next` (`tag.rs:317`) reads the 8-byte size (a short read
here is reported as `UnexpectedEof`, which `Error::raw_os_error` maps
to `libc::EOF` and the iterator treats as a clean end), ignores its
value, and then decodes a tag (a decode failure is yielded as an
error item, which `read_tag`'s collect propagates). -/

/-- One on-disk record for a tag: the 8-byte big-endian size followed
by the encoded tag. -/
def encodeTagRecord (t : Tag) : List Nat :=
  toBytesBE 8 (encodeTag t).length ++ encodeTag t

/-- `push_raw_tag_without_lock`: append one record to the stream
file. -/
def pushRawTagBytes (file : List Nat) (t : Tag) : List Nat :=
  file ++ encodeTagRecord t

/-- A stream file holding exactly the given records, earliest first. -/
def encodeTagFile : List Tag → List Nat
  | [] => []
  | t :: ts => encodeTagRecord t ++ encodeTagFile ts

/-- The driving loop of `TagIter` collected to the end (fuel-indexed;
`tagIterAll` supplies adequate fuel).  Each step consumes at least 9
bytes, so fuel equal to the stream length is always enough. -/
def tagIterLoop (fuel : Nat) (input : List Nat) : Except CodecErr (List Tag) :=
  match fuel with
  | 0 => .ok []
  | fuel + 1 =>
    if input.length < 8 then .ok []
    else
      (decodeTag (input.drop 8)).elim (.error .unexpectedEof) fun tr =>
        (tagIterLoop fuel tr.2).map fun ts => tr.1 :: ts

/-- Iterating a tag stream file (`TagIter`) to completion: the
decoded records earliest-first, or the first error encountered. -/
def tagIterAll (input : List Nat) : Except CodecErr (List Tag) :=
  tagIterLoop input.length input

/-- Errors surfaced by the tag storage operations.  `ioFailure`
stands for an I/O error from a failed write during a re-push. -/
inductive TagErr where
  | unknownReference
  | codec (e : CodecErr)
  | ioFailure
deriving DecidableEq, Repr

/-- `FSRepository::read_tag` (`tag.rs:145`): `UnknownReference` for a
missing stream file, otherwise the collected records reversed so that
the newest comes first. -/
def read_tag_bytes (file : Option (List Nat)) : Except TagErr (List Tag) :=
  file.elim (.error .unknownReference) fun bytes =>
    ((tagIterAll bytes).mapError TagErr.codec).map List.reverse

theorem tagIterLoop_fuel_irrelevant (f1 : Nat) :
    ∀ f2 input, input.length ≤ f1 → input.length ≤ f2 →
      tagIterLoop f1 input = tagIterLoop f2 input := by
  induction f1 with
  | zero =>
    intro f2 input h1 h2
    have : input = [] := List.eq_nil_of_length_eq_zero (Nat.le_zero.mp h1)
    subst this
    cases f2 <;> simp [tagIterLoop]
  | succ f1 ih =>
    intro f2 input h1 h2
    match f2 with
    | 0 =>
      have : input = [] := List.eq_nil_of_length_eq_zero (Nat.le_zero.mp h2)
      subst this
      simp [tagIterLoop]
    | f2 + 1 =>
      simp only [tagIterLoop]
      by_cases hlen : input.length < 8
      · rw [if_pos hlen, if_pos hlen]
      · rw [if_neg hlen, if_neg hlen]
        match hd : decodeTag (input.drop 8) with
        | none => rfl
        | some (t, rest) =>
          simp only [Option.elim_some]
          have hr : rest.length ≤ input.length - 8 := by
            have := decodeTag_length_le _ _ _ hd
            rw [List.length_drop] at this
            exact this
          rw [ih f2 rest (by omega) (by omega)]

theorem tagIterLoop_encodeTagFile (ts : List Tag) :
    ∀ extra fuel, (∀ t ∈ ts, wfTag t) → extra.length < 8 →
      (encodeTagFile ts ++ extra).length ≤ fuel →
      tagIterLoop fuel (encodeTagFile ts ++ extra) = .ok ts := by
  induction ts with
  | nil =>
    intro extra fuel _ hex hfuel
    match fuel with
    | 0 => simp [tagIterLoop]
    | fuel + 1 =>
      simp only [encodeTagFile, List.nil_append, tagIterLoop]
      rw [if_pos hex]
  | cons t ts ih =>
    intro extra fuel hwf hex hfuel
    have hwt : wfTag t := hwf t (List.mem_cons_self _ _)
    have hbytes :
        encodeTagFile (t :: ts) ++ extra =
          toBytesBE 8 (encodeTag t).length ++ (encodeTag t ++ (encodeTagFile ts ++ extra)) := by
      simp [encodeTagFile, encodeTagRecord, List.append_assoc]
    match fuel with
    | 0 =>
      exfalso
      have : 0 < (encodeTagFile (t :: ts) ++ extra).length := by
        rw [hbytes]
        simp [length_toBytesBE]
      omega
    | fuel + 1 =>
      rw [hbytes]
      simp only [tagIterLoop]
      have hlen8 :
          ¬(toBytesBE 8 (encodeTag t).length ++ (encodeTag t ++ (encodeTagFile ts ++ extra))).length
            < 8 := by
        simp [length_toBytesBE]
      rw [if_neg hlen8]
      have hdrop :
          (toBytesBE 8 (encodeTag t).length ++
              (encodeTag t ++ (encodeTagFile ts ++ extra))).drop 8 =
            encodeTag t ++ (encodeTagFile ts ++ extra) := by
        rw [show (8 : Nat) = (toBytesBE 8 (encodeTag t).length).length from
          (length_toBytesBE _ _).symm]
        exact List.drop_left _ _
      rw [hdrop, decodeTag_encodeTag t _ hwt]
      simp only [Option.elim_some]
      rw [ih extra fuel (fun u hu => hwf u (List.mem_cons_of_mem _ hu)) hex (by
        rw [hbytes] at hfuel
        simp only [List.length_append, length_toBytesBE] at hfuel
        simp only [List.length_append]
        omega)]
      rfl

/-- The collected iteration of a well-formed stream file (with any
trailing fragment shorter than a size prefix) yields exactly the
stored records, earliest first. -/
theorem tagIterAll_encodeTagFile (ts : List Tag) (extra : List Nat)
    (hwf : ∀ t ∈ ts, wfTag t) (hex : extra.length < 8) :
    tagIterAll (encodeTagFile ts ++ extra) = .ok ts :=
  tagIterLoop_encodeTagFile ts extra _ hwf hex (Nat.le_refl _)

theorem pushRawTagBytes_encodeTagFile (ts : List Tag) (t : Tag) :
    pushRawTagBytes (encodeTagFile ts) t = encodeTagFile (ts ++ [t]) := by
  unfold pushRawTagBytes
  induction ts with
  | nil => simp [encodeTagFile]
  | cons u ts ih =>
    show encodeTagRecord u ++ encodeTagFile ts ++ encodeTagRecord t
        = encodeTagRecord u ++ encodeTagFile (ts ++ [t])
    rw [List.append_assoc, ih]

/-- C2: pushing `a` then `b` onto a stream file holding the
well-formed records `ts` leaves the file holding the records
earliest-to-latest (`ts ++ [a, b]`), and `read_tag` yields them
reversed, newest first: position 0 is `b` and position 1 is `a`. -/
theorem c2_push_push_read_tag (ts : List Tag) (a b : Tag)
    (hts : ∀ t ∈ ts, wfTag t) (ha : wfTag a) (hb : wfTag b) :
    pushRawTagBytes (pushRawTagBytes (encodeTagFile ts) a) b = encodeTagFile (ts ++ [a, b]) ∧
      tagIterAll (encodeTagFile (ts ++ [a, b])) = .ok (ts ++ [a, b]) ∧
      read_tag_bytes (some (pushRawTagBytes (pushRawTagBytes (encodeTagFile ts) a) b)) =
        .ok (b :: a :: ts.reverse) := by
  have hwf2 : ∀ t ∈ ts ++ [a, b], wfTag t := by
    intro u hu
    rcases List.mem_append.mp hu with h | h
    · exact hts u h
    · rcases List.mem_cons.mp h with rfl | h
      · exact ha
      · rcases List.mem_cons.mp h with rfl | h
        · exact hb
        · exact absurd h (List.not_mem_nil u)
  have hfile : pushRawTagBytes (pushRawTagBytes (encodeTagFile ts) a) b
      = encodeTagFile (ts ++ [a, b]) := by
    rw [pushRawTagBytes_encodeTagFile, pushRawTagBytes_encodeTagFile]
    simp
  have hiter : tagIterAll (encodeTagFile (ts ++ [a, b])) = .ok (ts ++ [a, b]) := by
    have := tagIterAll_encodeTagFile (ts ++ [a, b]) [] hwf2 (by simp)
    simpa using this
  refine ⟨hfile, hiter, ?_⟩
  rw [hfile]
  simp only [read_tag_bytes, Option.elim_some]
  rw [hiter]
  simp [Except.mapError, Except.map]

/-- A concrete well-formed tag used for closed witnesses. -/
def tagA : Tag :=
  ⟨[111], [110], List.replicate 32 1, List.replicate 32 0, [117], 5⟩

/-- A second concrete well-formed tag, distinct from `tagA`. -/
def tagB : Tag :=
  ⟨[111], [110], List.replicate 32 2, List.replicate 32 1, [117], 9⟩

/-- Closed instance of `c2_push_push_read_tag` on an initially empty
stream: after pushing `tagA` then `tagB`, reading yields newest
first. -/
theorem c2_push_push_read_tag_witness :
    read_tag_bytes (some (pushRawTagBytes (pushRawTagBytes (encodeTagFile []) tagA) tagB)) =
      .ok [tagB, tagA] := by
  have h := c2_push_push_read_tag [] tagA tagB (by simp) (by decide) (by decide)
  simpa using h.2.2

/-! ## C6: tolerance of a partially written trailing record

A crash during `push_raw_tag_without_lock` leaves the stream as a
sequence of complete records followed by a fragment of the record
being written.  `TagIter::next` stops cleanly when the fragment ends
inside the 8-byte size, but a complete size followed by a short body
makes `Tag::decode` fail and the iterator yields that failure as an
error item. -/

theorem tagIterLoop_encodeTagFile_err (ts : List Tag) :
    ∀ extra fuel, (∀ t ∈ ts, wfTag t) → 8 ≤ extra.length →
      decodeTag (extra.drop 8) = none →
      (encodeTagFile ts ++ extra).length ≤ fuel →
      tagIterLoop fuel (encodeTagFile ts ++ extra) = .error .unexpectedEof := by
  induction ts with
  | nil =>
    intro extra fuel _ hex hdec hfuel
    match fuel with
    | 0 =>
      exfalso
      simp only [encodeTagFile, List.nil_append] at hfuel
      omega
    | fuel + 1 =>
      simp only [encodeTagFile, List.nil_append, tagIterLoop] at *
      rw [if_neg (by omega), hdec]
      rfl
  | cons t ts ih =>
    intro extra fuel hwf hex hdec hfuel
    have hwt : wfTag t := hwf t (List.mem_cons_self _ _)
    have hbytes :
        encodeTagFile (t :: ts) ++ extra =
          toBytesBE 8 (encodeTag t).length ++ (encodeTag t ++ (encodeTagFile ts ++ extra)) := by
      simp [encodeTagFile, encodeTagRecord, List.append_assoc]
    match fuel with
    | 0 =>
      exfalso
      have : 0 < (encodeTagFile (t :: ts) ++ extra).length := by
        rw [hbytes]
        simp [length_toBytesBE]
      omega
    | fuel + 1 =>
      rw [hbytes]
      simp only [tagIterLoop]
      have hlen8 :
          ¬(toBytesBE 8 (encodeTag t).length ++ (encodeTag t ++ (encodeTagFile ts ++ extra))).length
            < 8 := by
        simp [length_toBytesBE]
      rw [if_neg hlen8]
      have hdrop :
          (toBytesBE 8 (encodeTag t).length ++
              (encodeTag t ++ (encodeTagFile ts ++ extra))).drop 8 =
            encodeTag t ++ (encodeTagFile ts ++ extra) := by
        rw [show (8 : Nat) = (toBytesBE 8 (encodeTag t).length).length from
          (length_toBytesBE _ _).symm]
        exact List.drop_left _ _
      rw [hdrop, decodeTag_encodeTag t _ hwt]
      simp only [Option.elim_some]
      rw [ih extra fuel (fun u hu => hwf u (List.mem_cons_of_mem _ hu)) hex hdec (by
        rw [hbytes] at hfuel
        simp only [List.length_append, length_toBytesBE] at hfuel
        simp only [List.length_append]
        omega)]
      rfl

/-- C6 (amended): iterating a tag file of complete well-formed
records followed by at most one trailing fragment yields exactly the
complete records and stops cleanly when the fragment ends inside the
8-byte size prefix; when the fragment has a complete size prefix but
a body on which the tag decoder fails (in particular a truncated
body), the iterator instead surfaces an error item after the complete
records. -/
theorem c6_tag_iter_trailing_fragment (ts : List Tag) (extra : List Nat)
    (hwf : ∀ t ∈ ts, wfTag t) :
    (extra.length < 8 → tagIterAll (encodeTagFile ts ++ extra) = .ok ts) ∧
      (8 ≤ extra.length → decodeTag (extra.drop 8) = none →
        tagIterAll (encodeTagFile ts ++ extra) = .error .unexpectedEof) :=
  ⟨fun hex => tagIterLoop_encodeTagFile ts extra _ hwf hex (Nat.le_refl _),
    fun hex hdec => tagIterLoop_encodeTagFile_err ts extra _ hwf hex hdec (Nat.le_refl _)⟩

/-- Closed instances of `c6_tag_iter_trailing_fragment`: one complete
record plus a 3-byte fragment reads back cleanly; one complete record
plus a complete size prefix with an empty body is an error. -/
theorem c6_tag_iter_trailing_fragment_witness :
    tagIterAll (encodeTagFile [tagA] ++ [0, 0, 0]) = .ok [tagA] ∧
      tagIterAll (encodeTagFile [tagA] ++ toBytesBE 8 77) = .error .unexpectedEof := by
  constructor
  · exact (c6_tag_iter_trailing_fragment [tagA] [0, 0, 0] (by decide)).1 (by decide)
  · exact (c6_tag_iter_trailing_fragment [tagA] (toBytesBE 8 77) (by decide)).2
      (by decide) (by decide)

/-- C6 counterexample: with one complete record followed by a
partially written trailing record whose 8-byte size was fully written
but whose body was not, the tag reader does *not* stop cleanly after
the complete records: it yields an error item, so the collected
iteration is an error rather than the complete-record list. -/
theorem c6_counterexample_error_not_clean_stop :
    tagIterAll (encodeTagFile [tagA] ++ toBytesBE 8 77) = .error .unexpectedEof ∧
      tagIterAll (encodeTagFile [tagA] ++ toBytesBE 8 77) ≠ .ok [tagA] := by
  have h : tagIterAll (encodeTagFile [tagA] ++ toBytesBE 8 77) = .error .unexpectedEof :=
    tagIterLoop_encodeTagFile_err [tagA] (toBytesBE 8 77) _ (by decide)
      (by decide) (by decide) (Nat.le_refl _)
  exact ⟨h, fun hc => by cases h.symm.trans hc⟩

/-! ## C3: `FSRepository::remove_tag`

From `tag.rs` lines 212-241.  The protocol is modelled at the record
level: a stream is its chronological record list (C2 established the
byte-level correspondence), `read_tag` yields it newest first, the
current file is renamed to the backup, survivors are re-pushed oldest
first, and the backup is restored on a failed push (modelled by an
oracle giving the failing push indices) or deleted on success. -/

/-- The tag stream file and its `.backup` sibling, each `none` when
absent, holding chronological record lists. -/
structure TagStreamFS where
  file : Option (List Tag)
  backup : Option (List Tag)
deriving DecidableEq, Repr

/-- The re-push loop of `remove_tag`: push each surviving record in
order onto a fresh stream file, stopping with an error at the first
failed push (`pushFail i = true` means the i-th push fails). -/
def removePushLoop (pushFail : Nat → Bool) : Nat → List Tag → List Tag →
    Except TagErr (List Tag)
  | _, [], acc => .ok acc
  | i, v :: rest, acc =>
    if pushFail i then .error .ioFailure
    else removePushLoop pushFail (i + 1) rest (acc ++ [v])

/-- The tail of `remove_tag`: on a successful re-push the rebuilt
stream becomes the file and the backup is deleted; on a failed
re-push the backup (holding the original records `S`) is renamed
back and the error is returned. -/
def removeTagFinish (S : List Tag) :
    Except TagErr (List Tag) → Except TagErr Unit × TagStreamFS
  | .ok newFile => (.ok (), ⟨some newFile, none⟩)
  | .error e => (.error e, ⟨some S, none⟩)

/-- `FSRepository::remove_tag` on an existing stream holding the
chronological records `S`: read all records (newest first), drop those
equal to `t`, rename the file to the backup, re-push survivors oldest
first; on success delete the backup, on failure restore it and return
the error. -/
def removeTag (S : List Tag) (t : Tag) (pushFail : Nat → Bool) :
    Except TagErr Unit × TagStreamFS :=
  removeTagFinish S
    (removePushLoop pushFail 0 ((S.reverse.filter (fun v => v ≠ t)).reverse) [])

theorem removePushLoop_ok (pushFail : Nat → Bool) (hok : ∀ i, pushFail i = false) :
    ∀ pending i acc, removePushLoop pushFail i pending acc = .ok (acc ++ pending) := by
  intro pending
  induction pending with
  | nil => intro i acc; simp [removePushLoop]
  | cons v rest ih =>
    intro i acc
    simp only [removePushLoop, hok i, if_neg]
    rw [ih (i + 1) (acc ++ [v])]
    simp

theorem removePushLoop_err (pushFail : Nat → Bool) :
    ∀ pending i acc, (∃ k, k < pending.length ∧ pushFail (i + k) = true) →
      ∃ e, removePushLoop pushFail i pending acc = .error e := by
  intro pending
  induction pending with
  | nil =>
    rintro i acc ⟨k, hk, -⟩
    exact absurd hk (by simp)
  | cons v rest ih =>
    rintro i acc ⟨k, hk, hfail⟩
    by_cases hi : pushFail i = true
    · exact ⟨.ioFailure, by simp [removePushLoop, hi]⟩
    · have hkpos : k ≠ 0 := fun h0 => hi (by simpa [h0] using hfail)
      simp only [removePushLoop, hi, if_neg, Bool.false_eq_true, not_false_eq_true, if_false]
      exact ih (i + 1) (acc ++ [v]) ⟨k - 1, by simp at hk; omega,
        by rw [show i + 1 + (k - 1) = i + k by omega]; exact hfail⟩

theorem reverse_filter_reverse (S : List Tag) (p : Tag → Bool) :
    (S.reverse.filter p).reverse = S.filter p := by
  induction S with
  | nil => rfl
  | cons v rest ih =>
    simp only [List.reverse_cons, List.filter_append, List.reverse_append, ih]
    by_cases hp : p v <;> simp [List.filter, hp]

/-- C3: a successful `remove_tag t` leaves the stream holding exactly
the records different from `t`, in their original chronological
order, with the backup removed; if any re-push fails, the backup is
renamed back so the stream holds the original records unchanged, and
the error is returned. -/
theorem c3_remove_tag (S : List Tag) (t : Tag) (pushFail : Nat → Bool) :
    ((∀ i, pushFail i = false) →
      removeTag S t pushFail = (.ok (), ⟨some (S.filter (fun v => v ≠ t)), none⟩)) ∧
      ((∃ k, k < (S.filter (fun v => v ≠ t)).length ∧ pushFail k = true) →
        ∃ e, removeTag S t pushFail = (.error e, ⟨some S, none⟩)) := by
  constructor
  · intro hok
    unfold removeTag
    rw [removePushLoop_ok pushFail hok, reverse_filter_reverse]
    rfl
  · rintro ⟨k, hk, hfail⟩
    unfold removeTag
    have hlen : (S.reverse.filter (fun v => v ≠ t)).reverse.length
        = (S.filter (fun v => v ≠ t)).length := by
      rw [reverse_filter_reverse]
    obtain ⟨e, he⟩ := removePushLoop_err pushFail (S.reverse.filter (fun v => v ≠ t)).reverse 0
      [] ⟨k, by rw [hlen]; exact hk, by simpa using hfail⟩
    rw [he]
    exact ⟨e, rfl⟩

/-- Closed instances of `c3_remove_tag`: removing `tagA` from the
stream `[tagA, tagB]` keeps exactly `[tagB]` when pushes succeed, and
restores `[tagA, tagB]` with an error when the re-push fails. -/
theorem c3_remove_tag_witness :
    removeTag [tagA, tagB] tagA (fun _ => false) = (.ok (), ⟨some [tagB], none⟩) ∧
      ∃ e, removeTag [tagA, tagB] tagA (fun _ => true) =
        (.error e, ⟨some [tagA, tagB], none⟩) := by
  constructor
  · rw [(c3_remove_tag [tagA, tagB] tagA (fun _ => false)).1 (fun i => rfl)]
    rw [show List.filter (fun v => decide (v ≠ tagA)) [tagA, tagB] = [tagB] by decide]
  · exact (c3_remove_tag [tagA, tagB] tagA (fun _ => true)).2 ⟨0, by decide, rfl⟩

/-! ## The solver's package and build iterators

From `src/solve/package_iterator.rs`.  An `api::Spec` is modelled by
its package identifier, deprecation flag and resolved option map (the
data the iterators inspect; `resolve_all_options` is kept abstract as
the stored map).  A repository handle is modelled by total functions:
the I/O errors of a real repository other than the not-found cases
encoded as `Option` are external failures outside the model. -/

/-- The slice of `api::Spec` the iterators read: the identifier, the
deprecation flag, and the build's resolved option map (the result of
`resolve_all_options`, a name-to-value map with distinct names). -/
structure Spec where
  pkg : Ident
  deprecated : Bool
  opts : List (String × String)
deriving DecidableEq, Repr

/-- A repository handle for one package name: its listed versions,
the builds listed per version ident, the stored spec per ident
(`none` = `PackageNotFoundError`), and the published component map
per ident (`none` = `PackageNotFoundError`, which `next` defaults to
an empty component map). -/
structure Repo where
  versions : List Version
  builds : Ident → List Ident
  specs : Ident → Option Spec
  packages : Ident → Option (List String)

/-- One `next()` step of `RepositoryBuildIterator`
(`package_iterator.rs:268`): pop the front build; a missing spec is
logged and skipped; missing components default to empty; a stored
spec without a build gets the listed identifier's build before being
yielded.  Returns the yielded pair and the remaining queue. -/
def buildIterNextLoop (repo : Repo) : List Ident → Option ((Spec × List String) × List Ident)
  | [] => none
  | build :: rest =>
    match repo.specs build with
    | none => buildIterNextLoop repo rest
    | some spec0 =>
      some ((if spec0.pkg.build = none
            then { spec0 with pkg := spec0.pkg.with_build build.build }
            else spec0,
          (repo.packages build).getD []), rest)

/-- C9: if every identifier in the build queue carries a build (as
`list_package_builds` guarantees), then any pair yielded by
`RepositoryBuildIterator::next` has a spec whose `pkg.build` is
`Some` — a stored build-less spec is repaired with the listed
identifier's build before being yielded — and the remaining queue
again satisfies the same condition, so no consumer ever observes a
build-less spec from this iterator. -/
theorem c9_build_iter_spec_has_build (repo : Repo) (builds : List Ident)
    (h : ∀ b ∈ builds, b.build.isSome) :
    ∀ spec comps rest, buildIterNextLoop repo builds = some ((spec, comps), rest) →
      spec.pkg.build.isSome ∧ ∀ b ∈ rest, b.build.isSome := by
  induction builds with
  | nil => intro spec comps rest hev; cases hev
  | cons build queue ih =>
    intro spec comps rest hev
    have hb : build.build.isSome = true := h build (List.mem_cons_self _ _)
    have hq : ∀ b ∈ queue, b.build.isSome = true :=
      fun b hbq => h b (List.mem_cons_of_mem _ hbq)
    unfold buildIterNextLoop at hev
    split at hev
    · exact ih hq spec comps rest hev
    next spec0 hs =>
      rcases hev with ⟨rfl, rfl⟩ | _
      constructor
      · by_cases hnone : spec0.pkg.build = none
        · rw [if_pos hnone]
          simpa [Ident.with_build] using hb
        · rw [if_neg hnone]
          exact Option.isSome_iff_ne_none.mpr hnone
      · exact hq

/-- A concrete repository whose stored spec for `pkg/1` is corrupt
(no build component), for the C9 witness. -/
def repoC9 : Repo where
  versions := [1]
  builds := fun _ => [identDigest0]
  specs := fun i =>
    if i.name = "pkg" then
      some { pkg := { name := "pkg", version := 1, build := none },
             deprecated := false, opts := [] }
    else none
  packages := fun _ => none

/-- Closed instance of `c9_build_iter_spec_has_build`: the iterator
repairs the corrupt stored spec of `repoC9` with the listed digest
build before yielding it. -/
theorem c9_build_iter_spec_has_build_witness :
    buildIterNextLoop repoC9 [identDigest0] =
      some (({ pkg := identDigest0, deprecated := false, opts := [] }, []), []) ∧
      ({ pkg := identDigest0, deprecated := false, opts := [] } : Spec).pkg.build.isSome := by
  refine ⟨by decide, ?_⟩
  exact (c9_build_iter_spec_has_build repoC9 [identDigest0] (by decide)
    { pkg := identDigest0, deprecated := false, opts := [] } [] [] (by decide)).1

/-! ## C8: `RepositoryPackageIterator` and `async_clone`

From `package_iterator.rs` lines 105-253.  The `HashMap`s are
modelled as association lists with insert-overwrite; the shared
`Arc<Mutex<dyn BuildIterator>>` cells are modelled by the cached
build queues stored in `builds_map`; the `InvalidPackageSpec` skip
branch cannot arise because the modelled repository is total. -/

/-- Association-list lookup (`HashMap::get`). -/
def lookupA {κ α : Type} [DecidableEq κ] (k : κ) : List (κ × α) → Option α
  | [] => none
  | (k0, v) :: rest => if k0 = k then some v else lookupA k rest

/-- Association-list insert-overwrite (`HashMap::insert`). -/
def assocInsert {κ α : Type} [DecidableEq κ] (m : List (κ × α)) (k : κ) (v : α) :
    List (κ × α) :=
  if (lookupA k m).isSome then m.map (fun p => if p.1 = k then (k, v) else p)
  else m ++ [(k, v)]

/-- The stateful cursor `RepositoryPackageIterator`: the remaining
version deque (`none` until `start` runs), the version-to-repository
map, the per-version build-iterator cache, and the version currently
being yielded. -/
structure RepositoryPackageIterator where
  package_name : String
  repos : List Repo
  versions : Option (List Version)
  version_map : List (Version × Repo)
  builds_map : List (Version × List Ident)
  active_version : Option Version

/-- `RepositoryPackageIterator::new`. -/
def rpiNew (name : String) (repos : List Repo) : RepositoryPackageIterator :=
  ⟨name, repos, none, [], [], none⟩

/-- `build_version_map`: repositories are visited in reverse priority
order so that an earlier (higher-priority) repository overwrites. -/
def buildVersionMap (repos : List Repo) : List (Version × Repo) :=
  repos.reverse.foldl (fun m repo => repo.versions.foldl (fun m v => assocInsert m v repo) m) []

/-- `start`: build the version map (`PackageNotFoundError` when it is
empty) and sort its keys descending into the version deque. -/
def rpiStart (it : RepositoryPackageIterator) : Except String RepositoryPackageIterator :=
  let m := buildVersionMap it.repos
  if m.isEmpty then .error "package not found"
  else
    .ok ({ it with
      version_map := m,
      versions := some (((m.map Prod.fst).insertionSort (· ≤ ·)).reverse) })

/-- The per-version body of `RepositoryPackageIterator::next`: look
the active version up in the version map, construct and cache the
build iterator on a cache miss, and either yield the version ident
with the shared build queue or recurse (`recurse`) past a version
whose build iterator is empty. -/
def rpiStep
    (recurse : RepositoryPackageIterator →
      Except String (Option ((Ident × List Ident) × RepositoryPackageIterator)))
    (it1 : RepositoryPackageIterator) (v : Version) :
    Except String (Option ((Ident × List Ident) × RepositoryPackageIterator)) :=
  match lookupA v it1.version_map with
  | none => .error "version not found in version_map"
  | some repo =>
    let pkg : Ident := { name := it1.package_name, version := v, build := none }
    let it2 :=
      if (lookupA v it1.builds_map).isSome then it1
      else { it1 with
        builds_map := assocInsert it1.builds_map v (sortBuildsForIter (repo.builds pkg)) }
    let builds := (lookupA v it2.builds_map).getD []
    if builds.isEmpty then recurse { it2 with active_version := none }
    else .ok (some ((pkg, builds), it2))

/-- The driving loop of `RepositoryPackageIterator::next` after
`start` has run: pop a fresh active version when none is active, stop
at the end of the version deque, and run `rpiStep` (fuel-indexed for
the skip-empty-version recursion; `rpiNext` supplies adequate
fuel). -/
def rpiNextLoop : Nat → RepositoryPackageIterator →
    Except String (Option ((Ident × List Ident) × RepositoryPackageIterator))
  | 0, _ => .ok none
  | fuel + 1, it =>
    match it.active_version with
    | some v => rpiStep (rpiNextLoop fuel) it v
    | none =>
      match it.versions.getD [] with
      | [] => .ok none
      | v :: rest =>
        rpiStep (rpiNextLoop fuel)
          { it with versions := some rest, active_version := some v } v

/-- Fuel that bounds the remaining recursion depth of `rpiNextLoop`:
each pass either returns or consumes the active version. -/
def rpiMeasure (it : RepositoryPackageIterator) : Nat :=
  2 * (it.versions.getD []).length + (if it.active_version.isSome then 1 else 0)

/-- `RepositoryPackageIterator::next`: run `start` first when the
iterator has not started, then loop. -/
def rpiNext (it : RepositoryPackageIterator) :
    Except String (Option ((Ident × List Ident) × RepositoryPackageIterator)) :=
  match it.versions with
  | none =>
    match rpiStart it with
    | .error e => .error e
    | .ok it' => rpiNextLoop (rpiMeasure it' + 1) it'
  | some _ => rpiNextLoop (rpiMeasure it + 1) it

/-- `RepositoryPackageIterator::async_clone`
(`package_iterator.rs:119`): recompute the version map when not yet
started (falling back to a fresh iterator when the package is
unknown), keep the version deque, and reset `builds_map` and
`active_version` (the fields the Python clone never copied). -/
def asyncClone (it : RepositoryPackageIterator) : RepositoryPackageIterator :=
  match it.versions with
  | none =>
    let m := buildVersionMap it.repos
    if m.isEmpty then rpiNew it.package_name it.repos
    else { package_name := it.package_name, repos := it.repos, versions := none,
           version_map := m, builds_map := [], active_version := none }
  | some vs =>
    { package_name := it.package_name, repos := it.repos, versions := some vs,
      version_map := it.version_map, builds_map := [], active_version := none }

/-- The version ident yielded by one `next` call, if any. -/
def yieldedIdent :
    Except String (Option ((Ident × List Ident) × RepositoryPackageIterator)) → Option Ident
  | .ok (some ((pkg, _), _)) => some pkg
  | _ => none

/-- The iterator state after one `next` call, if it yielded. -/
def nextState :
    Except String (Option ((Ident × List Ident) × RepositoryPackageIterator)) →
      Option RepositoryPackageIterator
  | .ok (some (_, s)) => some s
  | _ => none

/-- A repository with two versions of `pkg`, one digest build each,
for the C8 counterexample. -/
def repoC8 : Repo where
  versions := [1, 2]
  builds := fun i =>
    [{ name := "pkg", version := i.version,
       build := some (.digest ['a', 'b', 'c', 'd', 'e', 'f', 'g', 'h']) }]
  specs := fun i => some { pkg := i, deprecated := false, opts := [] }
  packages := fun _ => none

/-- The listed digest build of `pkg/2` in `repoC8`. -/
def identC8v2 : Ident :=
  { name := "pkg", version := 2,
    build := some (.digest ['a', 'b', 'c', 'd', 'e', 'f', 'g', 'h']) }

/-- The iterator state reached after one `next` on a fresh iterator
over `repoC8`: version 2 was yielded and is still active, version 1
remains in the deque, and the build iterator for version 2 is
cached. -/
def rpiS1 : RepositoryPackageIterator :=
  { package_name := "pkg", repos := [repoC8], versions := some [1],
    version_map := [(1, repoC8), (2, repoC8)], builds_map := [(2, [identC8v2])],
    active_version := some 2 }

/-- C8 counterexample: after one `next` on a fresh iterator over
`repoC8` (which yields version 2 and leaves it active, state
`rpiS1`), the original iterator's next call yields version 2 again,
while the clone produced by `async_clone` — whose active version is
reset — yields version 1: the clone does not yield the same remaining
items as the original (the build cache, as claimed, is empty in the
clone). -/
theorem c8_counterexample_clone_position :
    nextState (rpiNext (rpiNew "pkg" [repoC8])) = some rpiS1 ∧
      yieldedIdent (rpiNext rpiS1) = some { name := "pkg", version := 2, build := none } ∧
      yieldedIdent (rpiNext (asyncClone rpiS1)) =
        some { name := "pkg", version := 1, build := none } ∧
      (asyncClone rpiS1).builds_map = [] ∧
      ({ name := "pkg", version := 2, build := none } : Ident) ≠
        { name := "pkg", version := 1, build := none } :=
  ⟨rfl, rfl, rfl, rfl, by decide⟩

/-- C8 (amended): for a started iterator, `async_clone` preserves the
remaining version deque and the version map — an independent cursor
over the same remaining versions — while the per-version
build-iterator cache comes back empty rather than cloned (so build
iterators are reconstructed on demand) and the active-version marker
is cleared, so a version the original was still actively yielding is
not re-yielded by the clone. -/
theorem c8_async_clone_fields (it : RepositoryPackageIterator) (vs : List Version)
    (h : it.versions = some vs) :
    asyncClone it =
      { package_name := it.package_name, repos := it.repos, versions := it.versions,
        version_map := it.version_map, builds_map := [], active_version := none } := by
  unfold asyncClone
  rw [h]

/-- Closed instance of `c8_async_clone_fields` at a concrete started
iterator state. -/
theorem c8_async_clone_fields_witness :
    asyncClone ⟨"pkg", [repoC8], some [1], [(2, repoC8), (1, repoC8)],
        [(2, [identDigest0])], some 2⟩ =
      ⟨"pkg", [repoC8], some [1], [(2, repoC8), (1, repoC8)], [], none⟩ :=
  c8_async_clone_fields
    ⟨"pkg", [repoC8], some [1], [(2, repoC8), (1, repoC8)], [(2, [identDigest0])], some 2⟩
    [1] rfl

/-! ## C4: key-column selection in `SortedBuildIterator`

From `sort_by_build_option_values` (`package_iterator.rs:449`) and
`BUILD_KEY_NAME_ORDER` (`package_iterator.rs:35`).  The `changes`
`HashMap` is modelled as an association list (its iteration order is
erased by the subsequent sort); each build's resolved option map is
the `opts` field of its `Spec`. -/

/-- The skip test at the top of the build loop: a build is skipped
iff it has a build component and that component is a source build. -/
def isSrcSkip (b : Spec) : Bool :=
  match b.pkg.build with
  | some bb => bb.is_source
  | none => false

/-- The per-option-name accumulator of `sort_by_build_option_values`:
the first value seen, the number of occurrences, and whether a
different value has been seen. -/
structure ChangeCounter where
  last : String
  count : Nat
  use_it : Bool
deriving DecidableEq, Repr

/-- One `changes.entry(name).or_insert(..)` pass: a new name enters
with its value, count 1 (`or_insert` with 0 then `count += 1`) and
`use_it = false`; an existing entry is bumped and marked `use_it`
once a value differing from the first one is seen. -/
def bumpChange (name value : String) : List (String × ChangeCounter) →
    List (String × ChangeCounter)
  | [] => [(name, { last := value, count := 1, use_it := false })]
  | (k, cc) :: rest =>
    if k = name then
      (k, { last := cc.last, count := cc.count + 1,
            use_it := cc.use_it || cc.last != value }) :: rest
    else (k, cc) :: bumpChange name value rest

/-- The inner loop over one build's resolved option map. -/
def bumpAll (changes : List (String × ChangeCounter)) (opts : List (String × String)) :
    List (String × ChangeCounter) :=
  opts.foldl (fun ch nv => bumpChange nv.1 nv.2 ch) changes

/-- The outer loop over all drained builds, skipping source builds. -/
def processBuilds (builds : List Spec) : List (String × ChangeCounter) :=
  builds.foldl (fun ch b => if isSrcSkip b then ch else bumpAll ch b.opts) []

/-- The non-source builds, in drain order. -/
def nonSrcBuilds (builds : List Spec) : List Spec :=
  builds.filter (fun b => !isSrcSkip b)

/-- `number_non_src_builds`: the loop counter equals the number of
non-source builds. -/
def numberNonSrcBuilds (builds : List Spec) : Nat :=
  (nonSrcBuilds builds).length

/-- `key_entry_names` before sorting: the names whose values differ
across builds or whose count differs from the number of non-source
builds. -/
def keyEntryNames (builds : List Spec) : List String :=
  ((processBuilds builds).filter
    (fun p => p.2.use_it || p.2.count != numberNonSrcBuilds builds)).map Prod.fst

/-- `key_entry_names.sort()`: the fallback alphabetical order. -/
def keyEntryNamesSorted (builds : List Spec) : List String :=
  (keyEntryNames builds).insertionSort (· ≤ ·)

/-- `ordered_names`: the priority-list names that are key columns, in
priority order, followed by the remaining sorted key names. -/
def orderedNames (order : List String) (builds : List Spec) : List String :=
  order.filter (fun n => decide (n ∈ keyEntryNamesSorted builds)) ++
    (keyEntryNamesSorted builds).filter (fun n => decide (n ∉ order))

/-- Rust `str::split(',')` on the char level, for
`BUILD_KEY_NAME_ORDER` (option-name validation, which drops invalid
names, is elided — every name in the default is valid). -/
def splitCommaAux (cur : List Char) : List Char → List (List Char)
  | [] => [cur.reverse]
  | c :: rest =>
    if c = ',' then cur.reverse :: splitCommaAux [] rest
    else splitCommaAux (c :: cur) rest

/-- Parse the comma-separated `SPK_BUILD_OPTION_KEY_ORDER` value into
the priority name list. -/
def parseBuildKeyNameOrder (s : String) : List String :=
  (splitCommaAux [] s.toList).map (fun cs => String.mk cs)

/-- The default priority list read when `SPK_BUILD_OPTION_KEY_ORDER`
is unset: parsed once from `"gcc,python"`. -/
def buildKeyNameOrderDefault : List String :=
  parseBuildKeyNameOrder "gcc,python"

/-- The option values recorded for name `n`, one per non-source build
that mentions `n`, in drain order. -/
def optionValues (builds : List Spec) (n : String) : List String :=
  (nonSrcBuilds builds).filterMap (fun b => lookupA n b.opts)

/-- Whether the value of option `n` varies across the non-source
builds (differs somewhere from the first value seen). -/
def valuesVary (builds : List Spec) (n : String) : Bool :=
  match optionValues builds n with
  | [] => false
  | v :: vs => vs.any (fun u => u != v)

/-- Whether some non-source build mentions option `n`. -/
def mentionedBySome (builds : List Spec) (n : String) : Bool :=
  (nonSrcBuilds builds).any (fun b => (lookupA n b.opts).isSome)

/-- Whether every non-source build mentions option `n`. -/
def mentionedByAll (builds : List Spec) (n : String) : Bool :=
  (nonSrcBuilds builds).all (fun b => (lookupA n b.opts).isSome)

/-- The claim's description of a key column: an option name mentioned
by some non-source build whose value varies across the non-source
builds or which is not mentioned by every non-source build. -/
def isKeyColumn (builds : List Spec) (n : String) : Bool :=
  mentionedBySome builds n && (valuesVary builds n || !mentionedByAll builds n)

/-- The change counter determined by a name's recorded value list. -/
def counterOfValues : List String → Option ChangeCounter
  | [] => none
  | v :: vs => some { last := v, count := vs.length + 1, use_it := vs.any (fun u => u != v) }

/-- The counter update performed for one occurrence of a name with
value `v`, as a function of the existing entry. -/
def bumpedCounter (v : String) : Option ChangeCounter → ChangeCounter
  | none => { last := v, count := 1, use_it := false }
  | some cc => { last := cc.last, count := cc.count + 1, use_it := cc.use_it || cc.last != v }

theorem lookupA_eq_none {κ α : Type} [DecidableEq κ] (k : κ) (m : List (κ × α)) :
    lookupA k m = none ↔ k ∉ m.map Prod.fst := by
  induction m with
  | nil => simp [lookupA]
  | cons p rest ih =>
    obtain ⟨k0, v⟩ := p
    by_cases hk : k0 = k
    · subst hk
      simp [lookupA]
    · rw [show lookupA k ((k0, v) :: rest) = lookupA k rest from by simp [lookupA, hk], ih]
      simp only [List.map_cons, List.mem_cons]
      constructor
      · intro hnot hor
        rcases hor with he | hm
        · exact hk he.symm
        · exact hnot hm
      · intro hnot hm
        exact hnot (Or.inr hm)

theorem bumpChange_lookup_self (name value : String) (ch : List (String × ChangeCounter)) :
    lookupA name (bumpChange name value ch) = some (bumpedCounter value (lookupA name ch)) := by
  induction ch with
  | nil => simp [bumpChange, lookupA, bumpedCounter]
  | cons p rest ih =>
    obtain ⟨k, cc⟩ := p
    by_cases hk : k = name
    · subst hk
      simp [bumpChange, lookupA, bumpedCounter]
    · simp [bumpChange, lookupA, hk, ih]

theorem bumpChange_lookup_other (n name value : String) (ch : List (String × ChangeCounter))
    (h : n ≠ name) :
    lookupA n (bumpChange name value ch) = lookupA n ch := by
  induction ch with
  | nil => simp [bumpChange, lookupA, Ne.symm h]
  | cons p rest ih =>
    obtain ⟨k, cc⟩ := p
    by_cases hk : k = name
    · subst hk
      have hkn : ¬(k = n) := fun hc => h hc.symm
      simp [bumpChange, lookupA, hkn]
    · simp only [bumpChange, if_neg hk]
      by_cases hkn : k = n <;> simp [lookupA, hkn, ih]

theorem bumpChange_keys (name value : String) (ch : List (String × ChangeCounter)) :
    (bumpChange name value ch).map Prod.fst =
      if name ∈ ch.map Prod.fst then ch.map Prod.fst else ch.map Prod.fst ++ [name] := by
  induction ch with
  | nil => simp [bumpChange]
  | cons p rest ih =>
    obtain ⟨k, cc⟩ := p
    by_cases hk : k = name
    · subst hk
      simp [bumpChange]
    · have : ¬(name = k) := fun hc => hk hc.symm
      simp only [bumpChange, if_neg hk, List.map_cons, List.mem_cons, this, false_or, ih]
      by_cases hmem : name ∈ rest.map Prod.fst <;> simp [hmem]

theorem bumpChange_keys_nodup (name value : String) (ch : List (String × ChangeCounter))
    (h : (ch.map Prod.fst).Nodup) :
    ((bumpChange name value ch).map Prod.fst).Nodup := by
  rw [bumpChange_keys]
  by_cases hmem : name ∈ ch.map Prod.fst
  · rwa [if_pos hmem]
  · rw [if_neg hmem]
    simp [List.nodup_append, h, hmem]

theorem bumpAll_lookup (opts : List (String × String)) :
    ∀ ch n, (opts.map Prod.fst).Nodup →
      lookupA n (bumpAll ch opts) =
        (lookupA n opts).elim (lookupA n ch)
          (fun v => some (bumpedCounter v (lookupA n ch))) := by
  induction opts with
  | nil =>
    intro ch n _
    simp [bumpAll, lookupA]
  | cons p rest ih =>
    obtain ⟨k, v⟩ := p
    intro ch n hnodup
    simp only [List.map_cons, List.nodup_cons] at hnodup
    obtain ⟨hk_not, hrest⟩ := hnodup
    show lookupA n (bumpAll (bumpChange k v ch) rest) = _
    rw [ih (bumpChange k v ch) n hrest]
    by_cases hkn : k = n
    · subst hkn
      have hnone : lookupA k rest = none := (lookupA_eq_none k rest).mpr hk_not
      rw [hnone]
      simp only [Option.elim_none]
      rw [bumpChange_lookup_self]
      rw [show lookupA k ((k, v) :: rest) = some v from by simp [lookupA]]
      rfl
    · have : lookupA n ((k, v) :: rest) = lookupA n rest := by
        simp [lookupA, hkn]
      rw [this, bumpChange_lookup_other n k v ch (fun hc => hkn hc.symm)]

theorem bumpAll_keys_nodup (opts : List (String × String)) :
    ∀ ch, ((ch.map Prod.fst) : List String).Nodup →
      ((bumpAll ch opts).map Prod.fst).Nodup := by
  induction opts with
  | nil => intro ch h; exact h
  | cons p rest ih =>
    intro ch h
    exact ih (bumpChange p.1 p.2 ch) (bumpChange_keys_nodup p.1 p.2 ch h)

theorem counterOfValues_append (vals : List String) (v : String) :
    counterOfValues (vals ++ [v]) = some (bumpedCounter v (counterOfValues vals)) := by
  cases vals with
  | nil => simp [counterOfValues, bumpedCounter]
  | cons v0 vs =>
    have hbne : (v != v0) = (v0 != v) := by
      by_cases hv : v = v0
      · subst hv; rfl
      · rw [bne_iff_ne.mpr hv, bne_iff_ne.mpr (Ne.symm hv)]
    simp [counterOfValues, bumpedCounter, List.any_append, hbne]

theorem processBuilds_lookup (builds : List Spec)
    (hnodup : ∀ b ∈ builds, (b.opts.map Prod.fst).Nodup) :
    (∀ n, lookupA n (processBuilds builds) = counterOfValues (optionValues builds n)) ∧
      ((processBuilds builds).map Prod.fst).Nodup := by
  induction builds using List.reverseRecOn with
  | nil =>
    constructor
    · intro n
      simp [processBuilds, optionValues, nonSrcBuilds, counterOfValues, lookupA]
    · simp [processBuilds]
  | append_singleton bs b ih =>
    have hb : (b.opts.map Prod.fst).Nodup := hnodup b (by simp)
    obtain ⟨ihl, ihn⟩ := ih (fun x hx => hnodup x (by simp [hx]))
    have hstep : processBuilds (bs ++ [b]) =
        if isSrcSkip b then processBuilds bs else bumpAll (processBuilds bs) b.opts := by
      simp [processBuilds, List.foldl_append]
    have hvals : ∀ n, optionValues (bs ++ [b]) n =
        optionValues bs n ++ (if isSrcSkip b then [] else (lookupA n b.opts).toList) := by
      intro n
      unfold optionValues nonSrcBuilds
      rw [List.filter_append, List.filterMap_append]
      congr 1
      by_cases hs : isSrcSkip b
      · simp [hs]
      · simp [hs, List.filterMap]
        cases lookupA n b.opts <;> rfl
    by_cases hs : isSrcSkip b
    · constructor
      · intro n
        rw [hstep, if_pos hs, hvals n, if_pos hs, List.append_nil]
        exact ihl n
      · rw [hstep, if_pos hs]
        exact ihn
    · constructor
      · intro n
        rw [hstep, if_neg hs, hvals n, if_neg hs]
        rw [bumpAll_lookup b.opts (processBuilds bs) n hb]
        cases hlk : lookupA n b.opts with
        | none =>
          simp only [Option.elim_none, Option.toList, List.append_nil]
          exact ihl n
        | some v =>
          simp only [Option.elim_some, Option.toList]
          rw [ihl n, counterOfValues_append]
      · rw [hstep, if_neg hs]
        exact bumpAll_keys_nodup b.opts (processBuilds bs) ihn

theorem mem_filter_map_fst {α : Type} (q : String × α → Bool) (n : String) :
    ∀ m : List (String × α), (m.map Prod.fst).Nodup →
      (n ∈ (m.filter q).map Prod.fst ↔
        ∃ cc, lookupA n m = some cc ∧ q (n, cc) = true) := by
  intro m
  induction m with
  | nil => simp [lookupA]
  | cons p rest ih =>
    obtain ⟨k, v⟩ := p
    intro hnodup
    simp only [List.map_cons, List.nodup_cons] at hnodup
    obtain ⟨hk_not, hrest⟩ := hnodup
    by_cases hk : k = n
    · subst hk
      rw [show lookupA k ((k, v) :: rest) = some v from by simp [lookupA]]
      constructor
      · intro hmem
        by_cases hq : q (k, v)
        · exact ⟨v, rfl, hq⟩
        · exfalso
          have hmem' : k ∈ (rest.filter q).map Prod.fst := by
            simpa [List.filter_cons, hq] using hmem
          exact hk_not (((List.filter_sublist _).map Prod.fst).subset hmem')
      · rintro ⟨cc, hcc, hq⟩
        cases hcc
        simp [List.filter_cons, hq]
    · rw [show lookupA n ((k, v) :: rest) = lookupA n rest from by simp [lookupA, hk]]
      rw [← ih hrest]
      have hnk : ¬(n = k) := fun hc => hk hc.symm
      by_cases hq : q (k, v) <;> simp [List.filter_cons, hq, hnk]

theorem filterMap_length_le {α β : Type} (f : α → Option β) (l : List α) :
    (l.filterMap f).length ≤ l.length := by
  induction l with
  | nil => simp
  | cons a rest ih =>
    cases hf : f a <;> simp [List.filterMap_cons, hf] <;> omega

theorem filterMap_length_eq_iff {α β : Type} (f : α → Option β) (l : List α) :
    (l.filterMap f).length = l.length ↔ ∀ a ∈ l, (f a).isSome := by
  induction l with
  | nil => simp
  | cons a rest ih =>
    have hle := filterMap_length_le f rest
    cases hf : f a with
    | none =>
      simp only [List.filterMap_cons, hf, List.length_cons, List.forall_mem_cons,
        Option.isSome_none]
      constructor
      · intro h
        omega
      · rintro ⟨h, -⟩
        cases h
    | some b =>
      simp only [List.filterMap_cons, hf, List.length_cons, List.forall_mem_cons,
        Option.isSome_some, true_and]
      rw [← ih]
      omega

theorem optionValues_ne_nil_iff (builds : List Spec) (n : String) :
    optionValues builds n ≠ [] ↔ mentionedBySome builds n = true := by
  unfold optionValues mentionedBySome
  rw [Ne, List.filterMap_eq_nil_iff]
  push_neg
  simp [List.any_eq_true, Option.isSome_iff_ne_none]

theorem mentionedByAll_iff_length (builds : List Spec) (n : String) :
    mentionedByAll builds n = true ↔
      (optionValues builds n).length = numberNonSrcBuilds builds := by
  unfold mentionedByAll optionValues numberNonSrcBuilds
  rw [filterMap_length_eq_iff]
  simp [List.all_eq_true]

theorem isKeyColumn_iff (builds : List Spec) (n : String) :
    isKeyColumn builds n = true ↔
      optionValues builds n ≠ [] ∧
        (valuesVary builds n = true ∨
          (optionValues builds n).length ≠ numberNonSrcBuilds builds) := by
  unfold isKeyColumn
  rw [Bool.and_eq_true, Bool.or_eq_true, ← optionValues_ne_nil_iff]
  have h3 : (!mentionedByAll builds n) = true ↔
      (optionValues builds n).length ≠ numberNonSrcBuilds builds := by
    rw [Bool.not_eq_true']
    constructor
    · intro hfalse heq
      rw [(mentionedByAll_iff_length builds n).mpr heq] at hfalse
      cases hfalse
    · intro hne
      cases hmb : mentionedByAll builds n
      · rfl
      · exact absurd ((mentionedByAll_iff_length builds n).mp hmb) hne
  rw [h3]

theorem mem_keyEntryNames_iff (builds : List Spec)
    (hnodup : ∀ b ∈ builds, (b.opts.map Prod.fst).Nodup) (n : String) :
    n ∈ keyEntryNames builds ↔ isKeyColumn builds n = true := by
  obtain ⟨hlook, hkeys⟩ := processBuilds_lookup builds hnodup
  rw [isKeyColumn_iff]
  unfold keyEntryNames
  rw [mem_filter_map_fst (fun p => p.2.use_it || p.2.count != numberNonSrcBuilds builds)
    n (processBuilds builds) hkeys]
  simp only
  constructor
  · rintro ⟨cc, hcc, hq⟩
    rw [hlook n] at hcc
    cases hv : optionValues builds n with
    | nil =>
      rw [hv] at hcc
      exact absurd hcc (by simp [counterOfValues])
    | cons v vs =>
      rw [hv] at hcc
      unfold counterOfValues at hcc
      injection hcc with hcc
      refine ⟨by simp, ?_⟩
      rw [← hcc, Bool.or_eq_true] at hq
      rcases hq with hu | hcnt
      · left
        unfold valuesVary
        rw [hv]
        exact hu
      · right
        simpa [bne_iff_ne] using hcnt
  · rintro ⟨hne, hcond⟩
    cases hv : optionValues builds n with
    | nil => exact absurd hv hne
    | cons v vs =>
      refine ⟨{ last := v, count := vs.length + 1, use_it := vs.any (fun u => u != v) },
        by rw [hlook n, hv]; rfl, ?_⟩
      rw [Bool.or_eq_true]
      rcases hcond with hvary | hlen
      · left
        unfold valuesVary at hvary
        rw [hv] at hvary
        exact hvary
      · right
        rw [hv] at hlen
        simpa [bne_iff_ne] using hlen

/-- C4: when `SortedBuildIterator` drains a set of builds, the key
columns are exactly the option names mentioned by some non-source
build whose value varies across the non-source builds or which are
not mentioned by every non-source build; the columns are the names of
the process-wide priority list that are key columns first, in list
order, followed by the remaining key-column names in alphabetical
order; and the priority list parsed from the default
`SPK_BUILD_OPTION_KEY_ORDER` value is `["gcc", "python"]`. -/
theorem c4_sorted_build_key_columns (order : List String) (builds : List Spec)
    (hnodup : ∀ b ∈ builds, (b.opts.map Prod.fst).Nodup) :
    (∀ n, n ∈ orderedNames order builds ↔ isKeyColumn builds n = true) ∧
      orderedNames order builds =
        order.filter (fun n => isKeyColumn builds n) ++
          (keyEntryNamesSorted builds).filter (fun n => decide (n ∉ order)) ∧
      List.Sorted (· ≤ ·)
        ((keyEntryNamesSorted builds).filter (fun n => decide (n ∉ order))) ∧
      buildKeyNameOrderDefault = ["gcc", "python"] := by
  have hmem : ∀ n, n ∈ keyEntryNamesSorted builds ↔ isKeyColumn builds n = true := by
    intro n
    rw [keyEntryNamesSorted, List.mem_insertionSort]
    exact mem_keyEntryNames_iff builds hnodup n
  refine ⟨?_, ?_, ?_, by decide⟩
  · intro n
    unfold orderedNames
    rw [List.mem_append, List.mem_filter, List.mem_filter]
    constructor
    · rintro (⟨-, h2⟩ | ⟨h1, -⟩)
      · exact (hmem n).mp (by simpa using h2)
      · exact (hmem n).mp h1
    · intro hcol
      by_cases ho : n ∈ order
      · exact Or.inl ⟨ho, by simpa using (hmem n).mpr hcol⟩
      · exact Or.inr ⟨(hmem n).mpr hcol, by simpa using ho⟩
  · unfold orderedNames
    congr 1
    apply List.filter_congr
    intro n hn
    have hiff := hmem n
    cases hik : isKeyColumn builds n
    · rw [hik] at hiff
      simp only [Bool.false_eq_true, iff_false] at hiff
      simp [hiff]
    · rw [hik] at hiff
      simp only [iff_true] at hiff
      simp [hiff]
  · exact List.Pairwise.filter _ (List.sorted_insertionSort _ _)

/-- A non-source build with options `gcc=9, debug=on`. -/
def specW1 : Spec :=
  { pkg := { name := "pkg", version := 1,
             build := some (.digest ['a', 'a', 'a', 'a', 'a', 'a', 'a', 'a']) },
    deprecated := false, opts := [("gcc", "9"), ("debug", "on")] }

/-- A non-source build with options `gcc=9, debug=off`. -/
def specW2 : Spec :=
  { pkg := { name := "pkg", version := 1,
             build := some (.digest ['b', 'b', 'b', 'b', 'b', 'b', 'b', 'b']) },
    deprecated := false, opts := [("gcc", "9"), ("debug", "off")] }

/-- Closed instances of `c4_sorted_build_key_columns`: across the two
builds `specW1`/`specW2` the option `debug` varies and is a key
column, while `gcc` has one constant value mentioned by both builds
and is not. -/
theorem c4_sorted_build_key_columns_witness :
    ("debug" ∈ orderedNames ["gcc", "python"] [specW1, specW2] ↔
        isKeyColumn [specW1, specW2] "debug" = true) ∧
      "debug" ∈ orderedNames ["gcc", "python"] [specW1, specW2] ∧
      "gcc" ∉ orderedNames ["gcc", "python"] [specW1, specW2] := by
  have h := c4_sorted_build_key_columns ["gcc", "python"] [specW1, specW2] (by decide)
  exact ⟨h.1 "debug", (h.1 "debug").mpr (by decide),
    fun hc => absurd ((h.1 "gcc").mp hc) (by decide)⟩

end Spk
